import Mathlib

/-!
Verification of the ftp-blueprints scripts (delete_file.py, download_file.py,
move_file.py) against their natural-language specification.  The Python
functions are shallowly embedded as executable Lean definitions; the stateful
FTP session and the local filesystem are modelled as explicit state that the
embedded functions thread through.
-/

namespace FtpBlueprints

/-- Model of Python `str.split('/')` on a character list: splits at every
`'/'`, keeping empty components (so the result is never empty). -/
def splitSlashL : List Char → List (List Char)
  | [] => [[]]
  | c :: cs =>
    if c = '/' then [] :: splitSlashL cs
    else
      match splitSlashL cs with
      | [] => [[c]]
      | s :: ss => (c :: s) :: ss

/-- Model of Python `str.split('/')` at the `String` level. -/
def pySplit (s : String) : List String :=
  (splitSlashL s.data).map (fun l => ⟨l⟩)

/-- One step of the component loop of `posixpath.normpath`: skip `''` and
`'.'`, append a normal component, and let `'..'` pop the previous component
(except at the root of an absolute path, or after an unpopped `'..'`). -/
def normSeg (initialSlashes : Nat) (acc : List (List Char)) (comp : List Char) :
    List (List Char) :=
  if comp = [] ∨ comp = ['.'] then acc
  else if comp ≠ ['.', '.'] ∨ (initialSlashes = 0 ∧ acc = []) ∨
      acc.getLast? = some ['.', '.'] then
    acc ++ [comp]
  else if acc ≠ [] then acc.dropLast
  else acc

/-- Number of leading separators `posixpath.normpath` preserves: one for an
absolute path, except that exactly two leading slashes are kept as two. -/
def normpathSlashes (l : List Char) : Nat :=
  if l.take 1 = ['/'] then
    if l.take 2 = ['/', '/'] ∧ l.take 3 ≠ ['/', '/', '/'] then 2 else 1
  else 0

/-- Character list produced by the body of `posixpath.normpath`: the leading
slashes followed by the processed components re-joined with `'/'`. -/
def normpathRes (l : List Char) : List Char :=
  List.replicate (normpathSlashes l) '/' ++
    List.intercalate ['/'] ((splitSlashL l).foldl (normSeg (normpathSlashes l)) [])

/-- Model of `os.path.normpath` (POSIX flavour, as the scripts run it on
`'/'`-separated paths): collapse duplicate separators, drop `'.'` segments,
resolve `'..'` segments, keep a leading slash (two leading slashes are kept
as two, per the POSIX rule implemented by `posixpath.normpath`); an empty
result becomes `'.'`. -/
def normpath (s : String) : String :=
  if s.data = [] then "."
  else if normpathRes s.data = [] then "."
  else ⟨normpathRes s.data⟩

/-- Model of the two-argument `os.path.join` (POSIX): an absolute second
component replaces the first; otherwise the parts are glued with a single
separator unless the first part is empty or already ends in one. -/
def pyJoin (a b : String) : String :=
  if b.data.take 1 = ['/'] then b
  else if a.data = [] ∨ a.data.getLast? = some '/' then a ++ b
  else a ++ "/" ++ b

/-- Model of `os.path.basename` / `rsplit('/', 1)[-1]`: the substring after
the last `'/'` (the whole string when it has no `'/'`). -/
def baseNameAfterLastSlash (s : String) : String :=
  ⟨(splitSlashL s.data).getLastD []⟩

/-- Model of `re.sub(r'\.', repl, s, 1)` on a character list: replace the
first `'.'` with `repl`; a string without `'.'` is returned unchanged. -/
def subFirstDot (repl : List Char) : List Char → List Char
  | [] => []
  | c :: cs => if c = '.' then repl ++ cs else c :: subFirstDot repl cs

/-- Embedding of `extract_file_name_from_source_full_path` from
download_file.py: `os.path.basename(source_full_path)`. -/
def extract_file_name_from_source_full_path (source_full_path : String) : String :=
  baseNameAfterLastSlash source_full_path

/-- Embedding of `enumerate_destination_file_name` from download_file.py:
when the name contains a `'.'` the first `'.'` is replaced (once) by
`_<file_number>.`; otherwise `_<file_number>` is appended. -/
def enumerate_destination_file_name (destination_file_name : String)
    (file_number : Nat) : String :=
  if '.' ∈ destination_file_name.data then
    ⟨subFirstDot ("_" ++ Nat.repr file_number ++ ".").data destination_file_name.data⟩
  else destination_file_name ++ "_" ++ Nat.repr file_number

/-- Truthiness of an optional Python string (`None` and `''` are falsy). -/
def pyTruthyStr (o : Option String) : Bool :=
  o.getD "" != ""

/-- Truthiness of an optional Python integer (`None` and `0` are falsy). -/
def pyTruthyNat (o : Option Nat) : Bool :=
  o.getD 0 != 0

/-- Embedding of `determine_destination_file_name` from download_file.py:
a truthy override name is used (enumerated when a truthy file number is
present); otherwise the name is extracted from the source path. -/
def determine_destination_file_name (source_full_path : String)
    (destination_file_name : Option String) (file_number : Option Nat) : String :=
  if pyTruthyStr destination_file_name then
    if pyTruthyNat file_number then
      enumerate_destination_file_name (destination_file_name.getD "")
        (file_number.getD 0)
    else destination_file_name.getD ""
  else extract_file_name_from_source_full_path source_full_path

/-- Embedding of `combine_folder_and_file_name` from download_file.py:
`normpath` applied (twice, as in the source) to
`f'{folder_name}{"/" if folder_name else ""}{file_name}'`. -/
def combine_folder_and_file_name (folder_name file_name : String) : String :=
  normpath (normpath
    (folder_name ++ (if folder_name != "" then "/" else "") ++ file_name))

/-- Embedding of `determine_destination_name` from download_file.py. -/
def determine_destination_name (destination_folder_name : String)
    (destination_file_name : Option String) (source_full_path : String)
    (file_number : Option Nat) : String :=
  combine_folder_and_file_name destination_folder_name
    (determine_destination_file_name source_full_path destination_file_name
      file_number)

/-- Modelled from the spec: `shipyard.files.determine_destination_full_path`
used by move_file.py lives in the external shipyard_utils library, not under
src/; §4.3 of the spec and the identically named local resolver in
download_file.py give its behaviour, which this definition follows. -/
def determine_destination_full_path (destination_folder_name : String)
    (destination_file_name : Option String) (source_full_path : String)
    (file_number : Option Nat) : String :=
  combine_folder_and_file_name destination_folder_name
    (determine_destination_file_name source_full_path destination_file_name
      file_number)

/-- Destination name computed for the match at 0-based `index0` by the regex
branch of download_file.py's `main`: the file number passed is always
`index + 1`, regardless of the number of matches. -/
def downloadRegexDestName (destination_folder_name : String)
    (destination_file_name : Option String) (source_full_path : String)
    (index0 : Nat) : String :=
  determine_destination_name destination_folder_name destination_file_name
    source_full_path (some (index0 + 1))

/-- Destination names of a whole regex-mode download batch, in discovery
order (the enumeration order of `matching_file_names` in `main`). -/
def downloadBatchDestNames (destination_folder_name : String)
    (destination_file_name : Option String)
    (matching_file_names : List String) : List String :=
  matching_file_names.mapIdx (fun i m =>
    downloadRegexDestName destination_folder_name destination_file_name m i)

/-- Destination path computed for the 1-based match `index1` by the regex
branch of move_file.py's `main`: the file number is `None` when the batch has
exactly one match and the 1-based index otherwise. -/
def moveRegexDestPath (total : Nat) (destination_folder_name : String)
    (destination_file_name : Option String) (key_name : String)
    (index1 : Nat) : String :=
  determine_destination_full_path destination_folder_name destination_file_name
    key_name (if total == 1 then none else some index1)

/-- Restatement of the spec's disambiguation rule (§4.3, rule 2), written
from the spec's words: if the override name contains a `'.'`, insert
`_<ordinal>` immediately before the first `'.'`; otherwise append
`_<ordinal>` to the end. -/
def spec_disambiguate (destination_file_name : String) (ordinal : Nat) : String :=
  if '.' ∈ destination_file_name.data then
    ⟨destination_file_name.data.takeWhile (fun c => c != '.') ++
      ("_" ++ Nat.repr ordinal).data ++
      destination_file_name.data.dropWhile (fun c => c != '.')⟩
  else destination_file_name ++ "_" ++ Nat.repr ordinal

/-- Embedding of `find_matching_files` from download_file.py; the compiled
regular expression is abstracted as the predicate `re.search` induces on
candidate strings.  Only `file_name.rsplit('/', 1)[-1]` — the base name — is
ever passed to that predicate. -/
def find_matching_files (pat : String → Bool) (file_names : List String) :
    List String :=
  file_names.filter (fun file_name => pat (baseNameAfterLastSlash file_name))

/-- Result of one call of the directory-walk step: the categorized file and
folder lists and the session's current working location on return. -/
structure WalkResult where
  files : List String
  folders : List String
  cwd : String
deriving DecidableEq

/-- Normalization applied to each listed entry by `find_files_in_directory`
(identical in delete_file.py and download_file.py): a name without a `'/'`
is re-prefixed with the folder being listed. -/
def normalizeEntryName (folder_filter name : String) : String :=
  if '/' ∈ name.data then name else folder_filter ++ "/" ++ name

/-- One iteration of the body of the `for name in names` loop of
`find_files_in_directory`.  The session probe `client.cwd(name)` is modelled
by the predicate `isDir`: success classifies a folder, and the only failure
the source distinguishes (`ftplib.error_perm`) classifies a file and leaves
the location unchanged.  After a successful probe the source immediately
issues `client.cwd(original_dir)`, restoring the entry location `cwd0`. -/
def walkStep (isDir : String → Bool) (cwd0 folder_filter : String)
    (acc : List String × List String × String) (name : String) :
    List String × List String × String :=
  let n := normalizeEntryName folder_filter name
  if isDir n then (acc.1, acc.2.1 ++ [n], cwd0)
  else (acc.1 ++ [n], acc.2.1, acc.2.2)

/-- Embedding of `find_files_in_directory` (delete_file.py and
download_file.py): the server's listing `client.nlst(folder_filter)` is the
input `names`; entries are normalized and classified by the `cwd` probe, and
`folders.remove(folder_filter)` removes the first occurrence of the filter
from the folder list — raising `ValueError` (modelled as `none`) when the
filter is absent. -/
def find_files_in_directory (isDir : String → Bool) (cwd0 folder_filter : String)
    (names files folders : List String) : Option WalkResult :=
  let r := names.foldl (walkStep isDir cwd0 folder_filter) (files, folders, cwd0)
  if folder_filter ∈ r.2.1 then some ⟨r.1, r.2.1.erase folder_filter, r.2.2⟩
  else none

/-- Model of the remote server as seen by `ftp_create_new_folders`
(move_file.py): the set of existing directories (as stacks of entered
segment names) and the set of directories the client is permitted to create.
A `client.cwd(folder)` succeeds exactly when the entered path exists, and a
`client.mkd(folder)` succeeds exactly when the target is creatable. -/
structure Server where
  dirs : List (List String)
  creatable : List (List String)
deriving DecidableEq

/-- Server state and location at the moment an uncaught error propagates out
of the provisioning loop. -/
structure ProvErr where
  srv : Server
  cwd : List String
deriving DecidableEq

/-- Server state, restored location, and the list of directories created
(`client.mkd` calls issued) by a completed provisioning call. -/
structure ProvOk where
  srv : Server
  cwd : List String
  mkds : List (List String)
deriving DecidableEq

/-- The `for folder in destination_path.split('/')` loop of
`ftp_create_new_folders`: try to enter each segment; on failure create it
and enter it.  A failing `mkd` raises and propagates with the location left
wherever the loop had moved it (the source has no `finally` restore). -/
def provisionSegs : Server → List String → List String → List (List String) →
    Except ProvErr ProvOk
  | srv, cwd, [], tr => .ok ⟨srv, cwd, tr⟩
  | srv, cwd, seg :: rest, tr =>
    let target := cwd ++ [seg]
    if target ∈ srv.dirs then provisionSegs srv target rest tr
    else if target ∈ srv.creatable then
      provisionSegs ⟨target :: srv.dirs, srv.creatable⟩ target rest (tr ++ [target])
    else .error ⟨srv, cwd⟩

/-- Embedding of `ftp_create_new_folders` (move_file.py): walk the segments
of `destination_path`, creating missing ones, then `client.cwd(original_dir)`
restores the entry location — but only on the successful path. -/
def ftp_create_new_folders (srv : Server) (cwd : List String)
    (destination_path : String) : Except ProvErr ProvOk :=
  match provisionSegs srv cwd (pySplit destination_path) [] with
  | .ok st => .ok ⟨st.srv, cwd, st.mkds⟩
  | .error e => .error e

/-- Two consecutive invocations of `ftp_create_new_folders` with the same
path, the second starting from the state the first left behind. -/
def ftp_create_new_folders_twice (srv : Server) (cwd : List String)
    (destination_path : String) : Except ProvErr (ProvOk × List (List String)) :=
  match ftp_create_new_folders srv cwd destination_path with
  | .ok st =>
    match ftp_create_new_folders st.srv st.cwd destination_path with
    | .ok st2 => .ok (st2, st.mkds)
    | .error e => .error e
  | .error e => .error e

/-- Every cumulative segment of the path already exists on the server
(the hypothesis of the idempotence property). -/
def allExistFrom (srv : Server) : List String → List String → Prop
  | _, [] => True
  | cwd, seg :: rest => (cwd ++ [seg]) ∈ srv.dirs ∧ allExistFrom srv (cwd ++ [seg]) rest

instance instDecAllExistFrom (srv : Server) :
    ∀ (cwd segs : List String), Decidable (allExistFrom srv cwd segs)
  | _, [] => .isTrue trivial
  | cwd, seg :: rest =>
    have : Decidable (allExistFrom srv (cwd ++ [seg]) rest) :=
      instDecAllExistFrom srv (cwd ++ [seg]) rest
    inferInstanceAs (Decidable (_ ∧ _))

/-- Exit paths taken by `delete_ftp_file` via `sys.exit`; the numeric codes
live in the repository's exit_codes module (not under src/), and only their
identity matters here. -/
inductive ExitTag where
  | invalidFilePath
deriving DecidableEq

/-- Embedding of `delete_ftp_file` (delete_file.py): the issued target is
`os.path.normpath(os.path.join(current_dir, folder_name, file_name))`. -/
def deleteIssuedPath (current_dir folder_name file_name : String) : String :=
  normpath (pyJoin (pyJoin current_dir folder_name) file_name)

/-- Embedding of `delete_ftp_file` (delete_file.py): the remote server is
the set of its file paths; `client.delete(target_norm)` succeeds exactly
when the issued path names an existing file, and any failure is converted
into `sys.exit(ec.EXIT_CODE_INVALID_FILE_PATH)` — a `SystemExit`, not an
`Exception`. -/
def delete_ftp_file (serverFiles : List String)
    (current_dir folder_name file_name : String) :
    Except ExitTag (List String) :=
  let target_norm := deleteIssuedPath current_dir folder_name file_name
  if target_norm ∈ serverFiles then .ok (serverFiles.erase target_norm)
  else .error .invalidFilePath

/-- Outcome of the regex-mode delete loop of delete_file.py's `main`. -/
inductive DeleteBatchResult where
  | completed (serverFiles : List String)
  | exited (tag : ExitTag) (serverFiles : List String)
deriving DecidableEq

/-- Embedding of the regex-mode `for index, file_name in
enumerate(matching_file_names)` loop of delete_file.py's `main`.  The loop
body wraps `delete_ftp_file` in `except Exception`, but `delete_ftp_file`
terminates via `sys.exit`, which raises `SystemExit` — not a subclass of
`Exception` — so the exit propagates and ends the process, leaving the
remaining matches unprocessed. -/
def runDeleteBatch (current_dir folder_name : String) :
    List String → List String → DeleteBatchResult
  | serverFiles, [] => .completed serverFiles
  | serverFiles, m :: ms =>
    match delete_ftp_file serverFiles current_dir folder_name m with
    | .ok serverFiles1 => runDeleteBatch current_dir folder_name serverFiles1 ms
    | .error tag => .exited tag serverFiles

/-- Embedding of `download_ftp_file` (download_file.py), with the local
filesystem modelled as the set of its file paths and the streaming step
`client.retrbinary` as the flag `retrOk`.  `open(local_path, 'wb')` creates
the local file; on a streaming failure `os.remove(local_path)` deletes it
before the exception is re-raised (`.error` carries the filesystem as the
exception surfaces). -/
def download_ftp_file (localFiles : List String) (destPath : String)
    (retrOk : Bool) : Except (List String) (List String) :=
  let opened := if destPath ∈ localFiles then localFiles else destPath :: localFiles
  if retrOk then .ok opened
  else .error (opened.filter (fun q => q != destPath))

/-- Embedding of the regex-mode download loop of download_file.py's `main`:
each match gets its resolved destination name; `download_ftp_file` raises an
ordinary `Exception` on failure, which the loop's `except Exception` catches
before continuing with the next match. -/
def runDownloadBatch (retrOk : String → Bool) (destination_folder_name : String)
    (destination_file_name : Option String) :
    List String → Nat → List String → List String
  | [], _, localFiles => localFiles
  | m :: ms, i, localFiles =>
    let dest := downloadRegexDestName destination_folder_name
      destination_file_name m i
    match download_ftp_file localFiles dest (retrOk m) with
    | .ok localFiles1 =>
      runDownloadBatch retrOk destination_folder_name destination_file_name
        ms (i + 1) localFiles1
    | .error localFiles1 =>
      runDownloadBatch retrOk destination_folder_name destination_file_name
        ms (i + 1) localFiles1

/-- Numeric value of a decimal digit character (used to relate `Nat.repr`
back to the number it prints). -/
def digitVal (c : Char) : Nat :=
  c.toNat - 48

/-- Value of a decimal digit string read left to right, starting from an
accumulator `i`. -/
def valFrom (i : Nat) (l : List Char) : Nat :=
  l.foldl (fun a c => 10 * a + digitVal c) i

/-- A path component that `normpath` passes through unchanged: nonempty,
separator-free, and not one of the special components `.` and `..`. -/
def normalSeg (c : List Char) : Prop :=
  c ≠ [] ∧ '/' ∉ c ∧ c ≠ ['.'] ∧ c ≠ ['.', '.']

instance (c : List Char) : Decidable (normalSeg c) :=
  inferInstanceAs (Decidable (_ ∧ _ ∧ _ ∧ _))

/-! ### Lemmas about splitting and joining on the path separator -/

theorem splitSlashL_ne_nil (l : List Char) : splitSlashL l ≠ [] := by
  cases l with
  | nil => simp [splitSlashL]
  | cons c cs =>
    simp only [splitSlashL]
    split
    · simp
    · split <;> simp

theorem splitSlashL_noSlash {l : List Char} (h : '/' ∉ l) : splitSlashL l = [l] := by
  induction l with
  | nil => rfl
  | cons c cs ih =>
    simp only [List.mem_cons, not_or] at h
    simp only [splitSlashL, if_neg (Ne.symm h.1), ih h.2]

theorem splitSlashL_slash_cons (t : List Char) :
    splitSlashL ('/' :: t) = [] :: splitSlashL t := by
  simp [splitSlashL]

theorem splitSlashL_append {p : List Char} (t : List Char) (h : '/' ∉ p) :
    splitSlashL (p ++ '/' :: t) = p :: splitSlashL t := by
  induction p with
  | nil => simpa using splitSlashL_slash_cons t
  | cons c cs ih =>
    simp only [List.mem_cons, not_or] at h
    simp only [List.cons_append, splitSlashL, if_neg (Ne.symm h.1)]
    rw [show cs.append ('/' :: t) = cs ++ '/' :: t from rfl, ih h.2]

theorem intercalate_cons_of_ne_nil {xs : List (List Char)} (a : List Char)
    (h : xs ≠ []) :
    List.intercalate ['/'] (a :: xs) = a ++ '/' :: List.intercalate ['/'] xs := by
  cases xs with
  | nil => exact absurd rfl h
  | cons b t => simp [List.intercalate, List.intersperse]

theorem intercalate_singleton (a : List Char) :
    List.intercalate ['/'] [a] = a := by
  simp [List.intercalate]

theorem splitSlashL_intercalate {comps : List (List Char)} (hne : comps ≠ [])
    (h : ∀ c ∈ comps, '/' ∉ c) :
    splitSlashL (List.intercalate ['/'] comps) = comps := by
  induction comps with
  | nil => exact absurd rfl hne
  | cons a xs ih =>
    cases xs with
    | nil =>
      rw [intercalate_singleton]
      exact splitSlashL_noSlash (h a (by simp))
    | cons b t =>
      rw [intercalate_cons_of_ne_nil a (by simp),
        splitSlashL_append _ (h a (by simp)),
        ih (by simp) (fun c hc => h c (List.mem_cons_of_mem a hc))]

theorem intercalate_splitSlashL (l : List Char) :
    List.intercalate ['/'] (splitSlashL l) = l := by
  induction l with
  | nil => simp [splitSlashL, List.intercalate]
  | cons c cs ih =>
    by_cases hc : c = '/'
    · subst hc
      rw [splitSlashL_slash_cons,
        intercalate_cons_of_ne_nil [] (splitSlashL_ne_nil cs), ih]
      rfl
    · simp only [splitSlashL, if_neg hc]
      rcases hss : splitSlashL cs with _ | ⟨s, ss⟩
      · exact absurd hss (splitSlashL_ne_nil cs)
      · cases ss with
        | nil =>
          rw [intercalate_singleton]
          rw [hss, intercalate_singleton] at ih
          rw [ih]
        | cons s2 ss2 =>
          rw [intercalate_cons_of_ne_nil _ (by simp)]
          rw [hss, intercalate_cons_of_ne_nil _ (by simp)] at ih
          simp [ih]

theorem intercalate_append_of_ne_nil {xs ys : List (List Char)} (hx : xs ≠ [])
    (hy : ys ≠ []) :
    List.intercalate ['/'] (xs ++ ys) =
      List.intercalate ['/'] xs ++ '/' :: List.intercalate ['/'] ys := by
  induction xs with
  | nil => exact absurd rfl hx
  | cons a t ih =>
    cases t with
    | nil =>
      rw [intercalate_singleton, List.singleton_append,
        intercalate_cons_of_ne_nil a hy]
    | cons b t2 =>
      rw [List.cons_append, intercalate_cons_of_ne_nil a (by simp),
        intercalate_cons_of_ne_nil a (by simp), ih (by simp)]
      simp

/-! ### Lemmas about `normpath` on canonical paths -/

theorem intercalate_head {comps : List (List Char)} (hne : comps ≠ [])
    (h : ∀ c ∈ comps, normalSeg c) :
    ∃ ch rest, List.intercalate ['/'] comps = ch :: rest ∧ ch ≠ '/' := by
  cases comps with
  | nil => exact absurd rfl hne
  | cons a t =>
    obtain ⟨ha0, haS, -, -⟩ := h a (by simp)
    rcases a with - | ⟨ach, atl⟩
    · exact absurd rfl ha0
    · have hach : ach ≠ '/' := by
        simp only [List.mem_cons, not_or] at haS
        exact fun e => haS.1 e.symm
      cases t with
      | nil => exact ⟨ach, atl, by rw [intercalate_singleton], hach⟩
      | cons b t2 =>
        refine ⟨ach, atl ++ '/' :: List.intercalate ['/'] (b :: t2), ?_, hach⟩
        rw [intercalate_cons_of_ne_nil _ (by simp)]
        rfl

theorem intercalate_getLast {comps : List (List Char)} (hne : comps ≠ [])
    (h : ∀ c ∈ comps, normalSeg c) :
    ∃ ch, (List.intercalate ['/'] comps).getLast? = some ch ∧ ch ≠ '/' := by
  induction comps with
  | nil => exact absurd rfl hne
  | cons a t ih =>
    cases t with
    | nil =>
      obtain ⟨ha0, haS, -, -⟩ := h a (by simp)
      rw [intercalate_singleton]
      refine ⟨a.getLast ha0, List.getLast?_eq_getLast a ha0, fun e => haS ?_⟩
      exact e ▸ List.getLast_mem ha0
    | cons b t2 =>
      obtain ⟨ch, hlast, hch⟩ := ih (by simp)
        (fun c hc => h c (List.mem_cons_of_mem a hc))
      refine ⟨ch, ?_, hch⟩
      rw [intercalate_cons_of_ne_nil a (by simp), List.getLast?_append]
      have hne2 : List.intercalate ['/'] (b :: t2) ≠ [] := by
        obtain ⟨ch2, rest2, he, -⟩ := @intercalate_head (b :: t2) (by simp)
          (fun c hc => h c (List.mem_cons_of_mem a hc))
        simp [he]
      rw [show ('/' :: List.intercalate ['/'] (b :: t2)).getLast?
          = (List.intercalate ['/'] (b :: t2)).getLast? from ?_, hlast]
      · rfl
      · cases hi : List.intercalate ['/'] (b :: t2) with
        | nil => exact absurd hi hne2
        | cons x xs => rw [List.getLast?_cons_cons]

theorem foldl_normSeg_normal {comps : List (List Char)} (k : Nat)
    (h : ∀ c ∈ comps, normalSeg c) (acc : List (List Char)) :
    comps.foldl (normSeg k) acc = acc ++ comps := by
  induction comps generalizing acc with
  | nil => simp
  | cons a t ih =>
    obtain ⟨ha0, -, haD, haDD⟩ := h a (by simp)
    have hstep : normSeg k acc a = acc ++ [a] := by
      rw [normSeg, if_neg (by simp [ha0, haD]), if_pos (Or.inl haDD)]
    rw [List.foldl_cons, hstep, ih (fun c hc => h c (List.mem_cons_of_mem a hc))]
    simp

theorem normpathSlashes_one {X : List Char} (hX : X.take 1 ≠ ['/']) :
    normpathSlashes ('/' :: X) = 1 := by
  have h2 : ¬(('/' :: X).take 2 = ['/', '/'] ∧ ('/' :: X).take 3 ≠ ['/', '/', '/']) := by
    rintro ⟨h2a, -⟩
    apply hX
    simpa using h2a
  rw [normpathSlashes, if_pos (by simp), if_neg h2]

theorem normpath_canonical {comps : List (List Char)} (hne : comps ≠ [])
    (h : ∀ c ∈ comps, normalSeg c) :
    normpath ⟨'/' :: List.intercalate ['/'] comps⟩ =
      ⟨'/' :: List.intercalate ['/'] comps⟩ := by
  obtain ⟨ch, rest, hic, hch⟩ := intercalate_head hne h
  have hslash : ∀ c ∈ comps, '/' ∉ c := fun c hc => (h c hc).2.1
  have hk : normpathSlashes ('/' :: List.intercalate ['/'] comps) = 1 := by
    apply normpathSlashes_one
    rw [hic]
    simp only [List.take_succ_cons, List.take_zero]
    exact fun e => hch (by injection e)
  have hres : normpathRes ('/' :: List.intercalate ['/'] comps)
      = '/' :: List.intercalate ['/'] comps := by
    rw [normpathRes, hk, splitSlashL_slash_cons, splitSlashL_intercalate hne hslash,
      List.foldl_cons, show normSeg 1 [] [] = [] from rfl,
      foldl_normSeg_normal 1 h [], List.nil_append, List.replicate_one]
    rfl
  show (if ('/' :: List.intercalate ['/'] comps : List Char) = [] then ("." : String)
    else if normpathRes ('/' :: List.intercalate ['/'] comps) = [] then "."
    else ⟨normpathRes ('/' :: List.intercalate ['/'] comps)⟩) =
      ⟨'/' :: List.intercalate ['/'] comps⟩
  rw [if_neg (by simp), hres, if_neg (by simp)]

/-! ### Lemmas about `pyJoin` -/

theorem pyJoin_slash_left {f : String} (hb : f.data.take 1 ≠ ['/']) :
    pyJoin "/" f = "/" ++ f := by
  rw [pyJoin, if_neg hb]
  exact if_pos (Or.inr rfl)

theorem pyJoin_sep {a b : String} (hb : b.data.take 1 ≠ ['/'])
    (ha : a.data ≠ []) (hlast : a.data.getLast? ≠ some '/') :
    pyJoin a b = a ++ "/" ++ b := by
  rw [pyJoin, if_neg hb, if_neg (by rintro (h | h); exacts [ha h, hlast h])]

theorem slash_data : ("/" : String).data = ['/'] := rfl

/-- C10: in regex mode of the delete operation, for every matched path
`m = f ++ "/" ++ r` produced by the walk (already prefixed with the source
folder `f`) and every non-empty source folder `f` (here: paths made of
ordinary segments — nonempty, separator-free, not `.` or `..`), the path
issued to the server's delete primitive is
`normpath(join(currentLocation, f, m))`, in which the source-folder segment
occurs twice, so the issued path differs from the matched path resolved
against the current location. -/
theorem C10_delete_issues_double_prefixed_path (f r : String)
    (hf : ∀ c ∈ splitSlashL f.data, normalSeg c)
    (hr : ∀ c ∈ splitSlashL r.data, normalSeg c) :
    deleteIssuedPath "/" f (f ++ "/" ++ r) = "/" ++ f ++ "/" ++ f ++ "/" ++ r ∧
    deleteIssuedPath "/" f (f ++ "/" ++ r) ≠
      normpath (pyJoin "/" (f ++ "/" ++ r)) := by
  have hfcne : splitSlashL f.data ≠ [] := splitSlashL_ne_nil _
  have hrcne : splitSlashL r.data ≠ [] := splitSlashL_ne_nil _
  have hfdata : List.intercalate ['/'] (splitSlashL f.data) = f.data :=
    intercalate_splitSlashL _
  have hrdata : List.intercalate ['/'] (splitSlashL r.data) = r.data :=
    intercalate_splitSlashL _
  obtain ⟨ch, rest, hic, hch⟩ := intercalate_head hfcne hf
  have hfhead : f.data = ch :: rest := by rw [← hfdata, hic]
  have htake1 : f.data.take 1 ≠ ['/'] := by
    rw [hfhead]
    simp only [List.take_succ_cons, List.take_zero]
    exact fun e => hch (by injection e)
  obtain ⟨lch, hlast, hlch⟩ := intercalate_getLast hfcne hf
  have hflast : f.data.getLast? = some lch := by rw [← hfdata]; exact hlast
  have hm : (f ++ "/" ++ r).data = f.data ++ '/' :: r.data := by
    rw [String.data_append, String.data_append, slash_data, List.append_assoc]
    rfl
  have hmtake : (f ++ "/" ++ r).data.take 1 ≠ ['/'] := by
    rw [hm, hfhead]
    simp only [List.cons_append, List.take_succ_cons, List.take_zero]
    exact fun e => hch (by injection e)
  have hj1 : pyJoin "/" f = "/" ++ f := pyJoin_slash_left htake1
  have hsf_data : ("/" ++ f).data = '/' :: f.data := by
    rw [String.data_append, slash_data]
    rfl
  have hsf_ne : ("/" ++ f).data ≠ [] := by rw [hsf_data]; simp
  have hsf_last : ("/" ++ f).data.getLast? ≠ some '/' := by
    rw [hsf_data, show ('/' :: f.data) = ['/'] ++ f.data from rfl,
      List.getLast?_append, hflast]
    simp only [Option.or_some]
    exact fun e => hlch (by injection e)
  have hj2 : pyJoin ("/" ++ f) (f ++ "/" ++ r) = "/" ++ f ++ "/" ++ (f ++ "/" ++ r) :=
    pyJoin_sep hmtake hsf_ne hsf_last
  have hAdata : ("/" ++ f ++ "/" ++ (f ++ "/" ++ r)).data
      = '/' :: List.intercalate ['/']
          ((splitSlashL f.data ++ splitSlashL f.data) ++ splitSlashL r.data) := by
    rw [intercalate_append_of_ne_nil (by simp [hfcne]) hrcne,
      intercalate_append_of_ne_nil hfcne hfcne, hfdata, hrdata,
      String.data_append, String.data_append, hsf_data, slash_data, hm]
    simp
  have hallA : ∀ c ∈ (splitSlashL f.data ++ splitSlashL f.data) ++ splitSlashL r.data,
      normalSeg c := by
    intro c hc
    simp only [List.mem_append] at hc
    rcases hc with (hc | hc) | hc
    exacts [hf c hc, hf c hc, hr c hc]
  have hAcanon : deleteIssuedPath "/" f (f ++ "/" ++ r)
      = ⟨'/' :: List.intercalate ['/']
          ((splitSlashL f.data ++ splitSlashL f.data) ++ splitSlashL r.data)⟩ := by
    rw [deleteIssuedPath, hj1, hj2, String.ext hAdata]
    exact normpath_canonical (by simp [hfcne]) hallA
  have hj3 : pyJoin "/" (f ++ "/" ++ r) = "/" ++ (f ++ "/" ++ r) :=
    pyJoin_slash_left hmtake
  have hCdata : ("/" ++ (f ++ "/" ++ r)).data
      = '/' :: List.intercalate ['/'] (splitSlashL f.data ++ splitSlashL r.data) := by
    rw [intercalate_append_of_ne_nil hfcne hrcne, hfdata, hrdata,
      String.data_append, slash_data, hm]
    rfl
  have hCcanon : normpath (pyJoin "/" (f ++ "/" ++ r))
      = ⟨'/' :: List.intercalate ['/'] (splitSlashL f.data ++ splitSlashL r.data)⟩ := by
    rw [hj3, String.ext hCdata]
    exact normpath_canonical (by simp [hfcne])
      (by
        intro c hc
        simp only [List.mem_append] at hc
        rcases hc with hc | hc
        exacts [hf c hc, hr c hc])
  refine ⟨?_, ?_⟩
  · rw [hAcanon]
    apply String.ext
    show '/' :: List.intercalate ['/']
        ((splitSlashL f.data ++ splitSlashL f.data) ++ splitSlashL r.data)
      = ("/" ++ f ++ "/" ++ f ++ "/" ++ r).data
    rw [intercalate_append_of_ne_nil (by simp [hfcne]) hrcne,
      intercalate_append_of_ne_nil hfcne hfcne, hfdata, hrdata]
    simp [String.data_append, slash_data]
  · rw [hAcanon, hCcanon]
    intro heq
    have hd := congrArg (fun s => s.data.length) heq
    simp only [] at hd
    rw [intercalate_append_of_ne_nil (by simp [hfcne]) hrcne,
      intercalate_append_of_ne_nil hfcne hfcne,
      intercalate_append_of_ne_nil hfcne hrcne] at hd
    simp only [List.length_cons, List.length_append] at hd
    omega

/-! ### `Nat.repr` prints a faithful, dot-free decimal numeral -/

theorem valFrom_append (i : Nat) (a b : List Char) :
    valFrom i (a ++ b) = valFrom (valFrom i a) b :=
  List.foldl_append _ _ _ _

theorem toDigitsCore_append (f : Nat) : ∀ (n : Nat) (acc : List Char),
    Nat.toDigitsCore 10 f n acc = Nat.toDigitsCore 10 f n [] ++ acc := by
  induction f with
  | zero => intro n acc; simp [Nat.toDigitsCore]
  | succ f ih =>
    intro n acc
    simp only [Nat.toDigitsCore]
    by_cases h : n / 10 = 0
    · simp [h]
    · simp only [h, if_neg (fun e => h e)]
      rw [ih (n / 10) (Nat.digitChar (n % 10) :: acc),
        ih (n / 10) [Nat.digitChar (n % 10)]]
      simp

theorem digitVal_digitChar {m : Nat} (h : m < 10) :
    digitVal (Nat.digitChar m) = m := by
  interval_cases m <;> decide

theorem digitChar_ne_dot {m : Nat} (h : m < 10) : Nat.digitChar m ≠ '.' := by
  interval_cases m <;> decide

theorem valFrom_toDigitsCore (f : Nat) : ∀ n i, n < 10 ^ f →
    valFrom i (Nat.toDigitsCore 10 f n []) =
      i * 10 ^ (Nat.toDigitsCore 10 f n []).length + n := by
  induction f with
  | zero =>
    intro n i h
    interval_cases n
    simp [Nat.toDigitsCore, valFrom]
  | succ f ih =>
    intro n i h
    have hmod : n % 10 < 10 := Nat.mod_lt _ (by norm_num)
    by_cases hdiv : n / 10 = 0
    · have hD : Nat.toDigitsCore 10 (f + 1) n [] = [Nat.digitChar (n % 10)] := by
        simp [Nat.toDigitsCore, hdiv]
      have hn : n < 10 := by omega
      rw [hD]
      show 10 * i + digitVal (Nat.digitChar (n % 10)) = i * 10 ^ [_].length + n
      rw [digitVal_digitChar hmod, List.length_singleton, pow_one]
      omega
    · have hD : Nat.toDigitsCore 10 (f + 1) n []
          = Nat.toDigitsCore 10 f (n / 10) [] ++ [Nat.digitChar (n % 10)] := by
        simp only [Nat.toDigitsCore, if_neg hdiv]
        exact toDigitsCore_append f (n / 10) [Nat.digitChar (n % 10)]
      have hlt : n / 10 < 10 ^ f := by
        rw [pow_succ] at h
        exact (Nat.div_lt_iff_lt_mul (by norm_num)).mpr h
      rw [hD, valFrom_append, ih (n / 10) i hlt]
      show 10 * (i * 10 ^ _ + n / 10) + digitVal (Nat.digitChar (n % 10)) = _
      rw [digitVal_digitChar hmod, List.length_append, List.length_singleton,
        pow_succ, ← Nat.mul_assoc]
      have hdm := Nat.div_add_mod n 10
      generalize i * 10 ^ (Nat.toDigitsCore 10 f (n / 10) []).length = K
      omega

theorem valFrom_toDigits (n : Nat) : valFrom 0 (Nat.toDigits 10 n) = n := by
  have h : n < 10 ^ (n + 1) :=
    lt_of_lt_of_le (Nat.lt_pow_self (by norm_num) n)
      (Nat.pow_le_pow_right (by norm_num) (Nat.le_succ n))
  have := valFrom_toDigitsCore (n + 1) n 0 h
  simpa [Nat.toDigits] using this

theorem repr_data_inj {a b : Nat} (h : (Nat.repr a).data = (Nat.repr b).data) :
    a = b := by
  have hab : Nat.toDigits 10 a = Nat.toDigits 10 b := h
  calc a = valFrom 0 (Nat.toDigits 10 a) := (valFrom_toDigits a).symm
    _ = valFrom 0 (Nat.toDigits 10 b) := by rw [hab]
    _ = b := valFrom_toDigits b

theorem toDigitsCore_ne_dot (f : Nat) : ∀ (n : Nat) (acc : List Char),
    (∀ c ∈ acc, c ≠ '.') → ∀ c ∈ Nat.toDigitsCore 10 f n acc, c ≠ '.' := by
  induction f with
  | zero =>
    intro n acc hacc
    simpa [Nat.toDigitsCore] using hacc
  | succ f ih =>
    intro n acc hacc
    have hmod : n % 10 < 10 := Nat.mod_lt _ (by norm_num)
    have hcons : ∀ c ∈ Nat.digitChar (n % 10) :: acc, c ≠ '.' := by
      intro c hc
      rcases List.mem_cons.mp hc with rfl | hc
      exacts [digitChar_ne_dot hmod, hacc c hc]
    simp only [Nat.toDigitsCore]
    by_cases hdiv : n / 10 = 0
    · simpa [hdiv] using hcons
    · simp only [hdiv, if_neg (fun e => hdiv e)]
      exact ih (n / 10) _ hcons

theorem repr_ne_dot (n : Nat) : '.' ∉ (Nat.repr n).data := by
  intro hmem
  exact toDigitsCore_ne_dot (n + 1) n [] (by simp) '.' hmem rfl

/-! ### Lemmas about first-dot replacement -/

theorem subFirstDot_split (repl : List Char) : ∀ {l : List Char}, '.' ∈ l →
    subFirstDot repl l = l.takeWhile (fun c => c != '.') ++ repl ++
      (l.dropWhile (fun c => c != '.')).tail := by
  intro l h
  induction l with
  | nil => cases h
  | cons c cs ih =>
    by_cases hc : c = '.'
    · subst hc
      simp [subFirstDot, List.takeWhile, List.dropWhile]
    · have hcs : '.' ∈ cs := by
        rcases List.mem_cons.mp h with e | hcs
        exacts [absurd e.symm hc, hcs]
      have hbe : (c != '.') = true := by simp [hc]
      simp only [subFirstDot, if_neg hc, List.takeWhile_cons, List.dropWhile_cons,
        hbe, if_pos trivial, ih hcs]
      simp

theorem dropWhile_dot : ∀ {l : List Char}, '.' ∈ l →
    l.dropWhile (fun c => c != '.') = '.' :: (l.dropWhile (fun c => c != '.')).tail := by
  intro l h
  induction l with
  | nil => cases h
  | cons c cs ih =>
    by_cases hc : c = '.'
    · subst hc
      simp [List.dropWhile]
    · have hcs : '.' ∈ cs := by
        rcases List.mem_cons.mp h with e | hcs
        exacts [absurd e.symm hc, hcs]
      have hbe : (c != '.') = true := by simp [hc]
      simp only [List.dropWhile_cons, hbe, if_pos trivial]
      exact ih hcs

theorem append_dot_cancel : ∀ {a b t : List Char}, '.' ∉ a → '.' ∉ b →
    a ++ '.' :: t = b ++ '.' :: t → a = b := by
  intro a
  induction a with
  | nil =>
    intro b t _ hb he
    cases b with
    | nil => rfl
    | cons c bs =>
      exfalso
      rw [List.nil_append, List.cons_append] at he
      injection he with h1 h2
      apply hb
      rw [← h1]
      exact List.mem_cons_self _ _
  | cons c as ih =>
    intro b t ha hb he
    cases b with
    | nil =>
      exfalso
      rw [List.nil_append, List.cons_append] at he
      injection he with h1 h2
      exact ha (h1 ▸ List.mem_cons_self _ _)
    | cons c2 bs =>
      rw [List.cons_append, List.cons_append] at he
      injection he with h1 h2
      rw [h1, ih (fun hm => ha (List.mem_cons_of_mem _ hm))
        (fun hm => hb (List.mem_cons_of_mem _ hm)) h2]

theorem enumerate_inj {d : String} {i j : Nat} (hij : i ≠ j) :
    enumerate_destination_file_name d i ≠ enumerate_destination_file_name d j := by
  intro he
  apply hij
  rw [enumerate_destination_file_name, enumerate_destination_file_name] at he
  by_cases hdot : '.' ∈ d.data
  · rw [if_pos hdot, if_pos hdot] at he
    have hdata := congrArg String.data he
    rw [show (String.mk (subFirstDot ("_" ++ Nat.repr i ++ ".").data d.data)).data
        = subFirstDot ("_" ++ Nat.repr i ++ ".").data d.data from rfl,
      show (String.mk (subFirstDot ("_" ++ Nat.repr j ++ ".").data d.data)).data
        = subFirstDot ("_" ++ Nat.repr j ++ ".").data d.data from rfl,
      subFirstDot_split _ hdot, subFirstDot_split _ hdot] at hdata
    rw [List.append_assoc, List.append_assoc] at hdata
    have hmid := List.append_cancel_left hdata
    have hri : ("_" ++ Nat.repr i ++ ".").data
        = '_' :: ((Nat.repr i).data ++ '.' :: []) := by
      rw [String.data_append, String.data_append]
      rfl
    have hrj : ("_" ++ Nat.repr j ++ ".").data
        = '_' :: ((Nat.repr j).data ++ '.' :: []) := by
      rw [String.data_append, String.data_append]
      rfl
    rw [hri, hrj, List.cons_append, List.cons_append] at hmid
    injection hmid with hmid0 hmid
    rw [List.append_assoc, List.append_assoc] at hmid
    exact repr_data_inj (append_dot_cancel (repr_ne_dot i) (repr_ne_dot j) hmid)
  · rw [if_neg hdot, if_neg hdot] at he
    have hdata := congrArg String.data he
    rw [String.data_append, String.data_append, String.data_append,
      String.data_append, List.append_assoc, List.append_assoc] at hdata
    have hmid := List.append_cancel_left hdata
    have hmid2 := List.append_cancel_left hmid
    exact repr_data_inj hmid2

/-! ### Lemmas about the walker and the provisioner -/

theorem walk_foldl_cwd (isDir : String → Bool) (cwd0 folder_filter : String) :
    ∀ (names : List String) (acc : List String × List String × String),
    acc.2.2 = cwd0 →
    (names.foldl (walkStep isDir cwd0 folder_filter) acc).2.2 = cwd0 := by
  intro names
  induction names with
  | nil => exact fun acc h => h
  | cons n ns ih =>
    intro acc h
    rw [List.foldl_cons]
    apply ih
    rw [walkStep]
    split
    · rfl
    · exact h

theorem walk_foldl_count (isDir : String → Bool) (cwd0 folder_filter : String) :
    ∀ (names : List String), (∀ n ∈ names, normalizeEntryName folder_filter n ≠ folder_filter) →
    ∀ (acc : List String × List String × String),
    List.count folder_filter (names.foldl (walkStep isDir cwd0 folder_filter) acc).2.1
      = List.count folder_filter acc.2.1 := by
  intro names
  induction names with
  | nil => exact fun _ acc => rfl
  | cons n ns ih =>
    intro h acc
    rw [List.foldl_cons, ih (fun x hx => h x (List.mem_cons_of_mem n hx))]
    rw [walkStep]
    split
    · show List.count folder_filter (acc.2.1 ++ [normalizeEntryName folder_filter n])
        = List.count folder_filter acc.2.1
      rw [List.count_append, List.count_singleton,
        if_neg (by simpa using h n (List.mem_cons_self n ns))]
      rfl
    · rfl

theorem provisionSegs_allExist {srv : Server} :
    ∀ {segs : List String} {cwd : List String} (tr : List (List String)),
    allExistFrom srv cwd segs →
    provisionSegs srv cwd segs tr =
      .ok ⟨srv, segs.foldl (fun c s => c ++ [s]) cwd, tr⟩ := by
  intro segs
  induction segs with
  | nil => exact fun tr _ => rfl
  | cons seg rest ih =>
    intro cwd tr h
    obtain ⟨h1, h2⟩ := h
    rw [provisionSegs]
    simp only [if_pos h1]
    exact ih tr h2

/-! ### The claims -/

/-- C1: the claim says a failing item of a regex-mode delete or download
batch is logged and the loop continues.  This holds for download, but the
delete loop's `except Exception` cannot catch the `SystemExit` raised by
`delete_ftp_file`'s `sys.exit`, so a failing delete aborts the batch: with
matches `["a.txt", "b.txt"]` and only `/b.txt` on the server, the run exits
after the first failure and `/b.txt` is never deleted, while the analogous
download batch does continue past its failing first item. -/
theorem C1_delete_batch_aborts_on_item_failure :
    runDeleteBatch "/" "" ["/b.txt"] ["a.txt", "b.txt"]
      = .exited .invalidFilePath ["/b.txt"] ∧
    runDownloadBatch (fun m => m != "data/a.csv") "" none
      ["data/a.csv", "data/b.csv"] 0 [] = ["b.csv"] :=
  ⟨rfl, rfl⟩

/-- C2 counterexample: the provisioner does not restore the session location
on every exit path.  On a server where `home/a` exists but `home/a/b` can
not be created, `ftp_create_new_folders` from location `["home"]` with path
`"a/b"` propagates the `mkd` failure with the location left at
`["home", "a"]`, not the entry value `["home"]`. -/
theorem C2_counterexample_error_path_leaves_cwd_moved :
    ftp_create_new_folders ⟨[["home"], ["home", "a"]], []⟩ ["home"] "a/b"
      = .error ⟨⟨[["home"], ["home", "a"]], []⟩, ["home", "a"]⟩ ∧
    (["home", "a"] : List String) ≠ ["home"] :=
  ⟨rfl, by decide⟩

/-- C2 (amended): on every NORMAL return, both the directory-walk step and
the path provisioner leave the session's current working location equal to
its value at entry; on a propagated error the provisioner may leave the
location moved. -/
theorem C2_amended_cwd_restored_on_normal_return :
    (∀ (isDir : String → Bool) (cwd0 folder_filter : String)
      (names files folders : List String) (res : WalkResult),
      find_files_in_directory isDir cwd0 folder_filter names files folders
        = some res → res.cwd = cwd0) ∧
    (∀ (srv : Server) (cwd : List String) (p : String) (res : ProvOk),
      ftp_create_new_folders srv cwd p = .ok res → res.cwd = cwd) := by
  constructor
  · intro isDir cwd0 folder_filter names files folders res hres
    simp only [find_files_in_directory] at hres
    split at hres
    · injection hres with hres
      rw [← hres]
      exact walk_foldl_cwd isDir cwd0 folder_filter names (files, folders, cwd0) rfl
    · cases hres
  · intro srv cwd p res hres
    rw [ftp_create_new_folders] at hres
    cases hps : provisionSegs srv cwd (pySplit p) [] with
    | error e => rw [hps] at hres; cases hres
    | ok st =>
      rw [hps] at hres
      injection hres with hres
      rw [← hres]

theorem C2_amended_witness :
    WalkResult.cwd ⟨[], [], "/"⟩ = "/" ∧
    ProvOk.cwd ⟨⟨[["a"]], []⟩, [], []⟩ = [] :=
  ⟨C2_amended_cwd_restored_on_normal_return.1 (fun _ => false) "/" "d"
      [] [] ["d"] ⟨[], [], "/"⟩ rfl,
    C2_amended_cwd_restored_on_normal_return.2 ⟨[["a"]], []⟩ [] "a"
      ⟨⟨[["a"]], []⟩, [], []⟩ rfl⟩

/-- C3 counterexample: with no override name, two matched sources that share
a final path segment resolve to the SAME combined destination path, so the
resolved destinations of a MatchSet are not always pairwise distinct. -/
theorem C3_counterexample_basename_collision :
    determine_destination_name "dl" none "a/f.txt" (some 1) = "dl/f.txt" ∧
    determine_destination_name "dl" none "b/f.txt" (some 2) = "dl/f.txt" ∧
    ("a/f.txt" : String) ≠ "b/f.txt" :=
  ⟨rfl, rfl, by decide⟩

/-- C3 (amended): when an override destination name is given, the resolved
destination file names for distinct (nonzero, 1-based) ordinals are pairwise
distinct; without an override, sources sharing a final segment collide. -/
theorem C3_amended_override_names_pairwise_distinct (d : String) (hd : d ≠ "")
    (src1 src2 : String) (i j : Nat) (hi : i ≠ 0) (hj : j ≠ 0) (hij : i ≠ j) :
    determine_destination_file_name src1 (some d) (some i) ≠
      determine_destination_file_name src2 (some d) (some j) := by
  have ht : pyTruthyStr (some d) = true := by simpa [pyTruthyStr] using hd
  have hti : pyTruthyNat (some i) = true := by simpa [pyTruthyNat] using hi
  have htj : pyTruthyNat (some j) = true := by simpa [pyTruthyNat] using hj
  simp only [determine_destination_file_name, ht, hti, htj, if_true, Option.getD_some]
  exact enumerate_inj hij

theorem C3_amended_witness :
    determine_destination_file_name "a/x.csv" (some "out.csv") (some 1) ≠
      determine_destination_file_name "b/x.csv" (some "out.csv") (some 2) :=
  C3_amended_override_names_pairwise_distinct "out.csv" (by decide) "a/x.csv"
    "b/x.csv" 1 2 (by decide) (by decide) (by decide)

/-- C4: the claim says regex mode with an override name adds no ordinal
suffix when the MatchSet has exactly one entry, for every operation.  Move
behaves that way (`file_number = None` when the match count is 1), but
download always passes `index + 1`, so a single-match regex download with
override `out.csv` produces `out_1.csv` where the claim requires
`out.csv`. -/
theorem C4_download_enumerates_single_match :
    downloadRegexDestName "" (some "out.csv") "data/f.csv" 0 = "out_1.csv" ∧
    moveRegexDestPath 1 "" (some "out.csv") "data/f.csv" 1 = "out.csv" ∧
    ("out_1.csv" : String) ≠ "out.csv" :=
  ⟨rfl, rfl, by decide⟩

/-- C5: for every override destination name and ordinal, the disambiguated
name inserts `_<ordinal>` immediately before the first `'.'` when the name
contains one and appends `_<ordinal>` otherwise; in particular a 3-match
download batch with override `out.csv` resolves, in discovery order, to
`out_1.csv`, `out_2.csv`, `out_3.csv`. -/
theorem C5_enumeration_inserts_before_first_dot :
    (∀ (d : String) (n : Nat),
      enumerate_destination_file_name d n = spec_disambiguate d n) ∧
    downloadBatchDestNames "" (some "out.csv")
        ["data/a.csv", "data/b.csv", "data/c.csv"]
      = ["out_1.csv", "out_2.csv", "out_3.csv"] := by
  constructor
  · intro d n
    rw [enumerate_destination_file_name, spec_disambiguate]
    by_cases hdot : '.' ∈ d.data
    · rw [if_pos hdot, if_pos hdot]
      refine congrArg String.mk ?_
      rw [subFirstDot_split _ hdot,
        show ("_" ++ Nat.repr n ++ ".").data = ("_" ++ Nat.repr n).data ++ ['.'] from
          by rw [String.data_append]]
      conv_rhs => rw [dropWhile_dot hdot]
      simp [List.append_assoc]
    · rw [if_neg hdot, if_neg hdot]
  · rfl

/-- C6 counterexample: when the server's listing of the root contains the
root's own (already prefixed) name, the walk classifies it as a folder and
appends it, and `folders.remove` takes away only one occurrence — so the
root `a/b` is still present in the returned folder set. -/
theorem C6_counterexample_root_in_returned_folders :
    find_files_in_directory (fun s => s == "a/b") "/" "a/b" ["a/b"] [] ["a/b"]
      = some ⟨[], ["a/b"], "/"⟩ ∧ "a/b" ∈ (["a/b"] : List String) :=
  ⟨rfl, by decide⟩

/-- C6 (amended): the root folder passed as the walk's starting filter is
absent from the folder set the walk returns, provided no listed entry
normalizes to the root itself and the worklist holds the root exactly
once. -/
theorem C6_amended_root_absent_from_returned_folders (isDir : String → Bool)
    (cwd0 folder_filter : String) (names files folders : List String)
    (h1 : ∀ n ∈ names, normalizeEntryName folder_filter n ≠ folder_filter)
    (h2 : List.count folder_filter folders = 1) (res : WalkResult)
    (hres : find_files_in_directory isDir cwd0 folder_filter names files folders
      = some res) :
    folder_filter ∉ res.folders := by
  simp only [find_files_in_directory] at hres
  split at hres
  · injection hres with hres
    rw [← hres]
    apply List.count_eq_zero.mp
    show List.count folder_filter (List.erase _ folder_filter) = 0
    rw [List.count_erase_self,
      walk_foldl_count isDir cwd0 folder_filter names h1 (files, folders, cwd0)]
    show List.count folder_filter folders - 1 = 0
    omega
  · cases hres

theorem C6_amended_witness :
    ("d" : String) ∉ (WalkResult.mk ["d/x.txt"] [] "/").folders :=
  C6_amended_root_absent_from_returned_folders (fun _ => false) "/" "d"
    ["x.txt"] [] ["d"] (by decide) (by decide) ⟨["d/x.txt"], [], "/"⟩ rfl

/-- C7: a download whose streaming step fails after the local file has been
opened removes the partially written local file before the error surfaces:
the filesystem carried by the propagated error never contains the
destination path. -/
theorem C7_failed_download_leaves_no_partial_file (localFiles : List String)
    (destPath : String) (fsAfter : List String)
    (h : download_ftp_file localFiles destPath false = .error fsAfter) :
    destPath ∉ fsAfter := by
  simp only [download_ftp_file, Bool.false_eq_true, if_false] at h
  injection h with h
  rw [← h]
  simp [List.mem_filter]

theorem C7_witness : ("f.txt" : String) ∉ ([] : List String) :=
  C7_failed_download_leaves_no_partial_file ["f.txt"] "f.txt" [] rfl

/-- C8: selection tests the compiled pattern only against each candidate's
base name: two patterns that agree on all base names select the same files,
and a pattern false on every base name (for instance one matching only a
directory segment) selects zero files. -/
theorem C8_pattern_applies_to_base_names_only (pat pat2 : String → Bool)
    (file_names : List String)
    (hagree : ∀ fn ∈ file_names,
      pat (baseNameAfterLastSlash fn) = pat2 (baseNameAfterLastSlash fn))
    (hnone : ∀ fn ∈ file_names, pat (baseNameAfterLastSlash fn) = false) :
    find_matching_files pat file_names = find_matching_files pat2 file_names ∧
    find_matching_files pat file_names = [] := by
  constructor
  · exact List.filter_congr (fun x hx => hagree x hx)
  · rw [find_matching_files]
    apply List.filter_eq_nil_iff.mpr
    intro a ha
    simp [hnone a ha]

theorem C8_witness :
    find_matching_files (fun s => s == "dir") ["dir/a.txt"]
      = find_matching_files (fun _ => false) ["dir/a.txt"] ∧
    find_matching_files (fun s => s == "dir") ["dir/a.txt"] = [] :=
  C8_pattern_applies_to_base_names_only (fun s => s == "dir") (fun _ => false)
    ["dir/a.txt"] (by decide) (by decide)

/-- C9: for a folder path all of whose cumulative segments already exist,
two consecutive invocations of the path provisioner create no folder (both
`mkd` traces are empty), raise no error, and leave the session's location
equal to its value before the first invocation. -/
theorem C9_provisioner_idempotent_on_existing_path (srv : Server)
    (cwd : List String) (p : String) (h : allExistFrom srv cwd (pySplit p)) :
    ftp_create_new_folders_twice srv cwd p = .ok (⟨srv, cwd, []⟩, []) := by
  have h1 : ftp_create_new_folders srv cwd p = .ok ⟨srv, cwd, []⟩ := by
    rw [ftp_create_new_folders, provisionSegs_allExist [] h]
  simp only [ftp_create_new_folders_twice, h1]

theorem C9_witness :
    ftp_create_new_folders_twice ⟨[["a"], ["a", "b"]], []⟩ [] "a/b"
      = .ok (⟨⟨[["a"], ["a", "b"]], []⟩, [], []⟩, []) :=
  C9_provisioner_idempotent_on_existing_path ⟨[["a"], ["a", "b"]], []⟩ [] "a/b"
    (by decide)

theorem C10_witness :
    deleteIssuedPath "/" "in" ("in" ++ "/" ++ "report.csv")
      = "/" ++ "in" ++ "/" ++ "in" ++ "/" ++ "report.csv" ∧
    deleteIssuedPath "/" "in" ("in" ++ "/" ++ "report.csv") ≠
      normpath (pyJoin "/" ("in" ++ "/" ++ "report.csv")) :=
  C10_delete_issues_double_prefixed_path "in" "report.csv" (by decide) (by decide)

end FtpBlueprints
